import Mathlib

/-!
# Verification of the regex VM (`regex.rs`)

Shallow embedding of the Pike-VM regular-expression engine:

* `src/program.rs` — instruction set, `ThreadList::add_thread` (epsilon
  closure), `Program::exec_searcher` (main loop and final sweeps);
* `src/state.rs` — the `State` capability, `ProgramState`, `SaveList`;
* `src/searcher.rs` — `StrSearcher`, `IterSearcher`;
* `src/token.rs` — the `is_word` predicate for `char`.

Rust `HashMap`/`HashSet` carriers are modelled as association lists / lists
(first-match lookup); the claims under scrutiny never exercise hash-order
behaviour.  Mutation is modelled by explicit state passing; `clone` of a
pure value is the identity.  The recursive closure `add_thread` may diverge
on zero-width cycles (the source is permitted to), so it takes explicit
fuel; a `panic!`/`unreachable!`/index panic and fuel exhaustion are
distinguished errors of an `Except` result, so `.ok` results correspond
exactly to terminating, non-panicking runs of the source.
-/

namespace RegexVM

/-- Error outcomes of the embedded VM: fuel exhaustion of the closure
recursion (the source may diverge there), the panic of an out-of-range
`InstrPtr` index, and the `unreachable!()` arm of the main-loop dispatch. -/
inductive VmError : Type where
  | outOfFuel : VmError
  | indexOutOfRange : VmError
  | unreachableInstr : VmError
deriving DecidableEq, Repr

deriving instance DecidableEq for Except

/-- Rust `ProgramState` from `src/state.rs`: read-only context passed to
`State::update`. -/
structure ProgramState (T : Type) where
  instruction_ptr : Nat
  token_index : Nat
  token : Option T
deriving DecidableEq, Repr

/-- Rust `ProgramState::increment_ip` from `src/state.rs`. -/
def ProgramState.increment_ip {T : Type} (s : ProgramState T) : ProgramState T :=
  { s with instruction_ptr := s.instruction_ptr + 1 }

/-- Rust `ProgramState::with_ip` from `src/state.rs`. -/
def ProgramState.with_ip {T : Type} (s : ProgramState T) (new_ip : Nat) : ProgramState T :=
  { s with instruction_ptr := new_ip }

/-- Rust `ProgramState::optional_with_ip` from `src/state.rs`. -/
def ProgramState.optional_with_ip {T : Type} (s : ProgramState T) (new_ip : Option Nat) :
    ProgramState T :=
  match new_ip with
  | some new_ip => s.with_ip new_ip
  | none => s

/-- The instruction set `Instr<T, S>` from `src/program.rs`.  `U` is the
state's update-argument type `S::Update`; `Map`/`Set` carry list models of
the hash containers. -/
inductive Instr (T U : Type) where
  | Token : T → Instr T U
  | Any : Instr T U
  | Map : List (T × Nat) → Instr T U
  | Set : List T → Instr T U
  | WordBoundary : Instr T U
  | Split : Nat → Instr T U
  | JSplit : Nat → Instr T U
  | Jump : Nat → Instr T U
  | UpdateState : U → Instr T U
  | Reject : Instr T U
  | Match : Instr T U
deriving DecidableEq, Repr

/-- Rust `Thread` struct from `src/program.rs`: an instruction pointer and the
thread's state. -/
structure Thread (S : Type) where
  pc : Nat
  state : S
deriving DecidableEq, Repr

/-- Rust `Program` struct from `src/program.rs`: the instruction vector and the
state-init parameter. -/
structure Program (T U I : Type) where
  prog : List (Instr T U)
  state_init : I

/-- Rust `HashMap::get` on the association-list model (first match wins). -/
def mapGet {T : Type} [DecidableEq T] : List (T × Nat) → T → Option Nat
  | [], _ => none
  | (k, v) :: rest, tok => if tok = k then some v else mapGet rest tok

/-- Rust `HashSet::contains` on the list model. -/
def setContains {T : Type} [DecidableEq T] : List T → T → Bool
  | [], _ => false
  | t :: rest, tok => if tok = t then true else setContains rest tok

/-- Rust `ThreadList::add_thread` from `src/program.rs` (lines 127–171): the
epsilon-closure admission procedure.  `upd` is the state's `update`
operation, modelled as `S → U → ProgramState T → S × Bool` (new state and
the returned `bool`).  The source recurses without a termination measure,
so the embedding takes fuel; the thread list grows by appending (the source
pushes onto `self.threads`).  Note that, exactly as in the source, the
`bool` returned by `update` is discarded in the `UpdateState` arm. -/
def addThread {T U S I : Type} (upd : S → U → ProgramState T → S × Bool)
    (prog : Program T U I) :
    Nat → ProgramState T → S → List (Thread S) → Except VmError (List (Thread S))
  | 0, _, _, _ => .error .outOfFuel
  | fuel + 1, program_state, state, threads =>
    match prog.prog.get? program_state.instruction_ptr with
    | none => .error .indexOutOfRange
    | some (.Split split) => do
      let threads ← addThread upd prog fuel program_state.increment_ip state threads
      addThread upd prog fuel (program_state.with_ip split) state threads
    | some (.JSplit split) => do
      let threads ← addThread upd prog fuel (program_state.with_ip split) state threads
      addThread upd prog fuel program_state.increment_ip state threads
    | some (.Jump jump) =>
      addThread upd prog fuel (program_state.with_ip jump) state threads
    | some (.UpdateState u) =>
      addThread upd prog fuel program_state.increment_ip (upd state u program_state).1 threads
    | some .Reject => .ok threads
    | some (.Token _) | some (.Map _) | some (.Set _)
    | some .Any | some .WordBoundary | some .Match =>
      .ok (threads ++ [⟨program_state.instruction_ptr, state⟩])

/-- One thread of the main-loop dispatch of `Program::exec_searcher`
(`src/program.rs` lines 253–311), for the token `tok` whose
post-consumption index is `idx`; `i` is the loop-carried index of the
previous iteration and `word_boundary` the flag computed at the top of the
step.  Returns the updated `next` list and `states` list.  The arm for the
zero-width instructions is the source's `unreachable!()`. -/
def stepThread {T U S I : Type} [DecidableEq T] (upd : S → U → ProgramState T → S × Bool)
    (prog : Program T U I) (fuel : Nat) (word_boundary : Bool) (idx i : Nat) (tok : T)
    (th : Thread S) (next : List (Thread S)) (states : List S) :
    Except VmError (List (Thread S) × List S) :=
  let next_program_state : ProgramState T := ⟨th.pc + 1, idx, some tok⟩
  match prog.prog.get? th.pc with
  | none => .error .indexOutOfRange
  | some (.Token token) =>
    if tok = token then do
      let next ← addThread upd prog fuel next_program_state th.state next
      .ok (next, states)
    else .ok (next, states)
  | some (.Set set) =>
    if setContains set tok then do
      let next ← addThread upd prog fuel next_program_state th.state next
      .ok (next, states)
    else .ok (next, states)
  | some (.Map map) => do
    let next ← addThread upd prog fuel
      (next_program_state.optional_with_ip (mapGet map tok)) th.state next
    .ok (next, states)
  | some .Any => do
    let next ← addThread upd prog fuel next_program_state th.state next
    .ok (next, states)
  | some .WordBoundary =>
    if word_boundary then do
      let next ← addThread upd prog fuel ⟨th.pc + 1, i, some tok⟩ th.state next
      .ok (next, states)
    else .ok (next, states)
  | some .Match => .ok (next, states ++ [th.state])
  | some (.Split _) | some (.JSplit _) | some (.Jump _)
  | some (.UpdateState _) | some .Reject => .error .unreachableInstr

/-- The drain of `curr` in one iteration of the main loop (`for th in &mut
curr`): fold `stepThread` over the active threads. -/
def runThreads {T U S I : Type} [DecidableEq T] (upd : S → U → ProgramState T → S × Bool)
    (prog : Program T U I) (fuel : Nat) (word_boundary : Bool) (idx i : Nat) (tok : T) :
    List (Thread S) → List (Thread S) → List S → Except VmError (List (Thread S) × List S)
  | [], next, states => .ok (next, states)
  | th :: rest, next, states => do
    let (next, states) ← stepThread upd prog fuel word_boundary idx i tok th next states
    runThreads upd prog fuel word_boundary idx i tok rest next states

/-- First final sweep of `Program::exec_searcher` (`src/program.rs` lines
319–343): after the searcher is exhausted, each remaining thread at a
`WordBoundary` admits its successor (at token index `i`, token `None`) iff
`word` is true, each thread at `Match` records its state, anything else is
a failed match. -/
def finalSweepWB {T U S I : Type} (upd : S → U → ProgramState T → S × Bool)
    (prog : Program T U I) (fuel : Nat) (word : Bool) (i : Nat) :
    List (Thread S) → List (Thread S) → List S → Except VmError (List (Thread S) × List S)
  | [], next, states => .ok (next, states)
  | th :: rest, next, states =>
    match prog.prog.get? th.pc with
    | none => .error .indexOutOfRange
    | some .WordBoundary =>
      if word then do
        let next ← addThread upd prog fuel ⟨th.pc + 1, i, none⟩ th.state next
        finalSweepWB upd prog fuel word i rest next states
      else finalSweepWB upd prog fuel word i rest next states
    | some .Match => finalSweepWB upd prog fuel word i rest next (states ++ [th.state])
    | some _ => finalSweepWB upd prog fuel word i rest next states

/-- Second final sweep of `Program::exec_searcher` (`src/program.rs` lines
345–351): any thread of the post-sweep list at `Match` contributes its
state. -/
def finalSweepMatch {T U S I : Type} (prog : Program T U I) :
    List (Thread S) → List S → Except VmError (List S)
  | [], states => .ok states
  | th :: rest, states =>
    match prog.prog.get? th.pc with
    | none => .error .indexOutOfRange
    | some .Match => finalSweepMatch prog rest (states ++ [th.state])
    | some _ => finalSweepMatch prog rest states

/-- The two final sweeps in sequence (the code after the main loop of
`Program::exec_searcher`); `next` starts out as the drained (empty) list
left by the last swap. -/
def finalPhase {T U S I : Type} (upd : S → U → ProgramState T → S × Bool)
    (prog : Program T U I) (fuel : Nat) (word : Bool) (i : Nat)
    (curr : List (Thread S)) (states : List S) : Except VmError (List S) := do
  let (next, states) ← finalSweepWB upd prog fuel word i curr [] states
  finalSweepMatch prog next states

/-- The main loop of `Program::exec_searcher` (`src/program.rs` lines
244–317), driven by the searcher's output stream, modelled as the list of
`(post-consumption index, token)` pairs the searcher yields before
returning `None`.  `word` is the flag "previous token was a word token",
`i` the loop-carried index (`i = idx` is executed at the end of each
iteration). -/
def execLoop {T U S I : Type} [DecidableEq T] (upd : S → U → ProgramState T → S × Bool)
    (prog : Program T U I) (fuel : Nat) (is_word : T → Bool) :
    List (Nat × T) → Bool → Nat → List (Thread S) → List S → Except VmError (List S)
  | [], word, i, curr, states => finalPhase upd prog fuel word i curr states
  | (idx, tok) :: rest, word, i, curr, states => do
    let new_word := is_word tok
    let word_boundary := Bool.xor new_word word
    let (next, states) ← runThreads upd prog fuel word_boundary idx i tok curr [] states
    execLoop upd prog fuel is_word rest new_word idx next states

/-- Rust `Program::exec_searcher` from `src/program.rs` (lines 214–355): seed
`curr` with the closure of `(0, init(state_init))` at token index 0, run
the main loop, then the final sweeps.  `init` is `S::init`, `upd` is
`S::update`, `is_word` the token's word predicate. -/
def exec {T U S I : Type} [DecidableEq T] (upd : S → U → ProgramState T → S × Bool)
    (init : I → S) (is_word : T → Bool) (prog : Program T U I) (fuel : Nat)
    (input : List (Nat × T)) : Except VmError (List S) := do
  let curr ← addThread upd prog fuel ⟨0, 0, none⟩ (init prog.state_init) []
  execLoop upd prog fuel is_word input false 0 curr []

/-- Rust `StrSearcher` from `src/searcher.rs`: a byte index and the remaining
codepoints. -/
structure StrSearcher where
  next_index : Nat
  iter : List Char
deriving DecidableEq, Repr

/-- Rust `StrSearcher::next` (`src/searcher.rs` lines 12–22): take the next
codepoint, advance `next_index` by its UTF-8 width, and return
`(next_index, the codepoint)`; when exhausted return `(next_index, None)`
unchanged. -/
def StrSearcher.next (s : StrSearcher) : (Nat × Option Char) × StrSearcher :=
  match s.iter with
  | [] => ((s.next_index, none), s)
  | c :: rest =>
    let next_index := s.next_index + c.utf8Size
    ((next_index, some c), ⟨next_index, rest⟩)

/-- Rust `<&str as IntoSearcher>::into_searcher` (`src/searcher.rs` lines
56–65): byte index 0, all codepoints pending. -/
def StrSearcher.into_searcher (l : List Char) : StrSearcher := ⟨0, l⟩

/-- Rust `IterSearcher` from `src/searcher.rs`: an element index and the
remaining elements. -/
structure IterSearcher (T : Type) where
  next_index : Nat
  iter : List T
deriving DecidableEq, Repr

/-- Rust `IterSearcher::new` (`src/searcher.rs` lines 29–36). -/
def IterSearcher.new {T : Type} (l : List T) : IterSearcher T := ⟨0, l⟩

/-- Rust `IterSearcher::next` (`src/searcher.rs` lines 38–48): advance the
index by 1 per element; when exhausted return `(next_index, None)`
unchanged. -/
def IterSearcher.next {T : Type} (s : IterSearcher T) : (Nat × Option T) × IterSearcher T :=
  match s.iter with
  | [] => ((s.next_index, none), s)
  | t :: rest => ((s.next_index + 1, some t), ⟨s.next_index + 1, rest⟩)

/-- Iterate `StrSearcher.next` `k` times, keeping the final searcher
state. -/
def StrSearcher.nextN : Nat → StrSearcher → StrSearcher
  | 0, s => s
  | k + 1, s => StrSearcher.nextN k s.next.2

/-- Iterate `IterSearcher.next` `k` times, keeping the final searcher
state. -/
def IterSearcher.nextN {T : Type} : Nat → IterSearcher T → IterSearcher T
  | 0, s => s
  | k + 1, s => IterSearcher.nextN k s.next.2

/-- The full `(idx, token)` stream a `StrSearcher` yields: unfolding of
`StrSearcher.next` until it returns `None`.  This is the input stream
`exec` consumes when the Rust program is run on a string. -/
def strStream : List Char → Nat → List (Nat × Char)
  | [], _ => []
  | c :: rest, next_index =>
    (next_index + c.utf8Size, c) :: strStream rest (next_index + c.utf8Size)

/-- The full `(idx, token)` stream an `IterSearcher` yields. -/
def iterStream {T : Type} : List T → Nat → List (Nat × T)
  | [], _ => []
  | t :: rest, next_index => (next_index + 1, t) :: iterStream rest (next_index + 1)

/-- Total UTF-8 byte length of a codepoint list. -/
def utf8Length (l : List Char) : Nat := (l.map Char.utf8Size).sum

/-- Rust `char::is_whitespace` of Rust: membership in the 25-codepoint Unicode
`White_Space` set. -/
def charIsWhitespace (c : Char) : Bool :=
  c ∈ ['\t', '\n', '\x0b', '\x0c', '\r', ' ', '\u0085', '\u00a0', '\u1680',
    '\u2000', '\u2001', '\u2002', '\u2003', '\u2004', '\u2005', '\u2006',
    '\u2007', '\u2008', '\u2009', '\u200a', '\u2028', '\u2029', '\u202f',
    '\u205f', '\u3000']

/-- Rust `<char as Token>::is_word` from `src/token.rs` (lines 16–24):
`!self.is_whitespace()`. -/
def charIsWord (c : Char) : Bool := !charIsWhitespace c

/-- Rust `SaveList` state from `src/state.rs` (line 58): a vector of saved
optional indices. -/
def SaveList : Type := List (Option Nat)

instance : DecidableEq SaveList :=
  inferInstanceAs (DecidableEq (List (Option Nat)))

/-- Rust `<SaveList as State>::init` (`src/state.rs` lines 67–69):
`vec![None; *init]`. -/
def SaveList.init (init : Nat) : SaveList := List.replicate init none

/-- Rust `<SaveList as State>::update` (`src/state.rs` lines 71–78): if the
slot exists (`get_mut` returns `Some`), write `token_index` there and
return `true`; else return `false` with the vector unchanged. -/
def SaveList.update {T : Type} (s : SaveList) (update : Nat)
    (program_state : ProgramState T) : SaveList × Bool :=
  match s.get? update with
  | some _ => (s.set update (some program_state.token_index), true)
  | none => (s, false)

/-- Rust `Program::exec` on string input (`src/program.rs` line 201 composed
with the `StrSearcher` adapter), over the `SaveList` state. -/
def execStr {I : Type} (prog : Program Char Nat I) (init : I → SaveList) (fuel : Nat)
    (s : List Char) : Except VmError (List SaveList) :=
  exec SaveList.update init charIsWord prog fuel (strStream s 0)


/-- Instructions that may legitimately appear in an active thread list:
consuming instructions, `WordBoundary` and `Match`.  The zero-width
`Split`/`JSplit`/`Jump`/`UpdateState`/`Reject` are eliminated by
`addThread`. -/
def Instr.stoppable {T U : Type} : Instr T U → Bool
  | .Token _ | .Any | .Map _ | .Set _ | .WordBoundary | .Match => true
  | .Split _ | .JSplit _ | .Jump _ | .UpdateState _ | .Reject => false

/-- A thread whose `pc` points at a stoppable instruction of the
program. -/
def ThreadOk {T U S I : Type} (prog : Program T U I) (th : Thread S) : Prop :=
  ∃ instr, prog.prog.get? th.pc = some instr ∧ instr.stoppable = true

/-- The bytecode of the test in `src/program_macro.rs` (lines 75–110):
`/(ab?)(b?c)\b/` with the implicit lazy preamble, over `SaveList` with 6
save slots. -/
def progC4 : Program Char Nat Nat :=
  ⟨[.JSplit 3, .Any, .Jump 0, .UpdateState 0, .UpdateState 2, .Token 'a',
    .Split 8, .Token 'b', .UpdateState 3, .UpdateState 4, .Split 12,
    .Token 'b', .Token 'c', .UpdateState 5, .WordBoundary, .UpdateState 1,
    .Match], 6⟩

/-- A program whose state update always rejects: `UpdateState(0)` over a
`SaveList` with zero slots, then `Match`. -/
def progC1 : Program Char Nat Nat := ⟨[.UpdateState 0, .Match], 0⟩

/-- A program whose admission closure reaches `(1, σ)` along two paths:
`Split(1)` at pc 0 admits pc 0+1 = 1 and pc 1. -/
def progC2 : Program Char Nat Nat := ⟨[.Split 1, .Token 'a', .Match], 1⟩

/-- A program with a `WordBoundary` followed by an `UpdateState`, to
observe the token index passed during the boundary's re-admission. -/
def progC3 : Program Char Nat Nat := ⟨[.Any, .WordBoundary, .UpdateState 0, .Match], 1⟩

/-- Spec-side description of the final sweeps (for comparison with the
code): the states of the threads of a list that sit at `Match`, in list
order. -/
def collectMatches {T U S I : Type} (prog : Program T U I) (l : List (Thread S)) : List S :=
  l.filterMap fun th =>
    match prog.prog.get? th.pc with
    | some .Match => some th.state
    | _ => none

/-- Spec-side description of the first final sweep (for comparison with
the code): every thread still at a `WordBoundary` admits its successor
(at token index `i`, token absent) iff `word` is true; every other
thread contributes nothing to the admitted list. -/
def specSweepWB {T U S I : Type} (upd : S → U → ProgramState T → S × Bool)
    (prog : Program T U I) (fuel : Nat) (word : Bool) (i : Nat) :
    List (Thread S) → List (Thread S) → Except VmError (List (Thread S))
  | [], next => .ok next
  | th :: rest, next =>
    match prog.prog.get? th.pc with
    | some .WordBoundary =>
      if word then do
        let next ← addThread upd prog fuel ⟨th.pc + 1, i, none⟩ th.state next
        specSweepWB upd prog fuel word i rest next
      else specSweepWB upd prog fuel word i rest next
    | _ => specSweepWB upd prog fuel word i rest next

end RegexVM

namespace RegexVM

theorem addThread_append {T U S I : Type} (upd : S → U → ProgramState T → S × Bool)
    (prog : Program T U I) (fuel : Nat) :
    ∀ (ps : ProgramState T) (σ : S) (acc : List (Thread S)),
    addThread upd prog fuel ps σ acc =
      Except.map (fun t => acc ++ t) (addThread upd prog fuel ps σ []) := by
  induction fuel with
  | zero => intro ps σ acc; rfl
  | succ fuel ih =>
    intro ps σ acc
    cases h : prog.prog.get? ps.instruction_ptr with
    | none => simp only [addThread, h]; rfl
    | some instr =>
      cases instr with
      | Split a =>
        simp only [addThread, h, bind, Except.bind]
        rw [ih ps.increment_ip σ acc]
        cases h1 : addThread upd prog fuel ps.increment_ip σ [] with
        | error e => rfl
        | ok t1 =>
          simp only [Except.map]
          rw [ih (ps.with_ip a) σ (acc ++ t1), ih (ps.with_ip a) σ t1]
          cases h2 : addThread upd prog fuel (ps.with_ip a) σ [] with
          | error e => rfl
          | ok t2 => simp [Except.map, List.append_assoc]
      | JSplit a =>
        simp only [addThread, h, bind, Except.bind]
        rw [ih (ps.with_ip a) σ acc]
        cases h1 : addThread upd prog fuel (ps.with_ip a) σ [] with
        | error e => rfl
        | ok t1 =>
          simp only [Except.map]
          rw [ih ps.increment_ip σ (acc ++ t1), ih ps.increment_ip σ t1]
          cases h2 : addThread upd prog fuel ps.increment_ip σ [] with
          | error e => rfl
          | ok t2 => simp [Except.map, List.append_assoc]
      | Jump a =>
        simp only [addThread, h]
        exact ih (ps.with_ip a) σ acc
      | UpdateState u =>
        simp only [addThread, h]
        exact ih ps.increment_ip (upd σ u ps).1 acc
      | Reject => simp only [addThread, h, Except.map, List.append_nil]
      | Token t => simp only [addThread, h]; rfl
      | Any => simp only [addThread, h]; rfl
      | Map m => simp only [addThread, h]; rfl
      | Set st => simp only [addThread, h]; rfl
      | WordBoundary => simp only [addThread, h]; rfl
      | Match => simp only [addThread, h]; rfl

end RegexVM

namespace RegexVM

/-- C1 (code bug): the source discards the `bool` returned by
`state.update` in the `UpdateState` arm of `add_thread`
(`src/program.rs` line 160), so a thread whose update rejects is *not*
dropped, contradicting the claim and the `State` trait's own
documentation.  At the failing input — program `[UpdateState(0), Match]`
over a zero-slot `SaveList`, empty input — the update returns `false`
(first conjunct), yet execution still returns one match (second
conjunct) instead of the empty result the claim implies (third
conjunct). -/
theorem c1_update_reject_still_admitted :
    (SaveList.update (T := Char) (SaveList.init 0) 0 ⟨0, 0, none⟩ = (SaveList.init 0, false))
    ∧ execStr progC1 SaveList.init 10 [] = .ok [([] : SaveList)]
    ∧ execStr progC1 SaveList.init 10 [] ≠ .ok [] := by
  refine ⟨rfl, rfl, ?_⟩
  decide

/-- C2 (counterexample): for the program `[Split(1), Token('a'), Match]`,
the seeded active thread list (input position 0) contains the thread
`(1, [None])` twice — `Split(1)` at pc 0 admits `(0+1, σ)` and `(1, σ)` —
so the list is *not* free of duplicate `(pc, state)` pairs; the source
deliberately performs no deduplication at all. -/
theorem c2_duplicate_thread_counterexample :
    addThread (SaveList.update (T := Char)) progC2 5 ⟨0, 0, none⟩ (SaveList.init 1) [] =
      .ok [⟨1, [none]⟩, ⟨1, [none]⟩]
    ∧ ¬ List.Pairwise (fun a b => a ≠ b)
        [(⟨1, [none]⟩ : Thread SaveList), ⟨1, [none]⟩] := by
  refine ⟨by decide, ?_⟩
  intro hp
  exact (List.pairwise_cons.mp hp).1 ⟨1, [none]⟩ (by simp) rfl

/-- C2 (amended): `add_thread` performs no deduplication whatsoever —
duplicate `(pc, state)` threads may coexist in an active list — but
admission is append-only, so threads already admitted keep their
(higher) priority position and every new admission lands behind them. -/
theorem c2_admission_append_only {T U S I : Type} (upd : S → U → ProgramState T → S × Bool)
    (prog : Program T U I) (fuel : Nat) (ps : ProgramState T) (σ : S)
    (acc l : List (Thread S)) (h : addThread upd prog fuel ps σ acc = .ok l) :
    ∃ tail, l = acc ++ tail ∧ addThread upd prog fuel ps σ [] = .ok tail := by
  rw [addThread_append] at h
  cases h1 : addThread upd prog fuel ps σ [] with
  | error e => rw [h1] at h; exact absurd h (by simp [Except.map])
  | ok t =>
    rw [h1] at h
    simp only [Except.map, Except.ok.injEq] at h
    exact ⟨t, h.symm, rfl⟩

/-- Witness for the amended C2 statement at a concrete input. -/
theorem c2_append_only_witness :
    ∃ tail, [(⟨1, [none]⟩ : Thread SaveList), ⟨1, [none]⟩] = [] ++ tail ∧
      addThread (SaveList.update (T := Char)) progC2 5 ⟨0, 0, none⟩ (SaveList.init 1) [] =
        .ok tail :=
  c2_admission_append_only _ _ _ _ _ _ _ (by decide)

/-- C3 (counterexample): for the program
`[Any, WordBoundary, UpdateState(0), Match]` on input `"a "`, the
boundary fires during the step that consumes `' '` (post-consumption
index 2); the claim says the `UpdateState` reached by the re-admission
sees `token_index = 2`, but the run saves index 1 — the source passes
the loop-carried *previous* index `i` (`src/program.rs` line 293), not
`idx`. -/
theorem c3_wordboundary_index_counterexample :
    execStr progC3 SaveList.init 10 ['a', ' '] = .ok [[some 1]]
    ∧ (Except.ok [[some 1]] : Except VmError (List SaveList)) ≠ .ok [[some 2]] := by
  refine ⟨rfl, ?_⟩
  decide

/-- C3 (amended): a satisfied `WordBoundary` during the main step
re-admits its successor `pc + 1` with `ctx.token_index = i`, the
post-consumption index of the *previous* step (the index just before the
token consumed in this step), while the current token is passed along. -/
theorem c3_wordboundary_uses_previous_index {T U S I : Type} [DecidableEq T]
    (upd : S → U → ProgramState T → S × Bool) (prog : Program T U I) (fuel : Nat)
    (idx i : Nat) (tok : T) (th : Thread S) (next : List (Thread S)) (states : List S)
    (h : prog.prog.get? th.pc = some .WordBoundary) :
    stepThread upd prog fuel true idx i tok th next states =
      Except.map (fun nx => (nx, states))
        (addThread upd prog fuel ⟨th.pc + 1, i, some tok⟩ th.state next) := by
  simp only [stepThread, h, if_true, bind, Except.bind]
  cases addThread upd prog fuel ⟨th.pc + 1, i, some tok⟩ th.state next with
  | error e => rfl
  | ok nx => rfl

/-- Witness for the amended C3 statement at a concrete input. -/
theorem c3_previous_index_witness :
    stepThread (SaveList.update (T := Char)) progC3 10 true 2 1 ' ' ⟨1, [none]⟩ [] [] =
      Except.map (fun nx => (nx, ([] : List SaveList)))
        (addThread (SaveList.update (T := Char)) progC3 10 ⟨2, 1, some ' '⟩ [none] []) :=
  c3_wordboundary_uses_previous_index _ _ _ _ _ _ _ _ _ rfl

/-- C4: the bytecode for `/(ab?)(b?c)\b/` (lazy preamble, 6 save slots)
run on `"ducabc "` returns exactly the two claimed `SaveList` results, in
this priority order: both matches span `(3, 6)` and differ only in how
the `b` splits between the groups. -/
theorem c4_two_matches_shared_span :
    execStr progC4 SaveList.init 20 ['d', 'u', 'c', 'a', 'b', 'c', ' '] =
      .ok [[some 3, some 6, some 3, some 5, some 5, some 6],
        [some 3, some 6, some 3, some 4, some 4, some 6]] := by
  rfl

/-- C5: the admission closure follows the spec exactly on the enumerated
cases: `Split(a)` admits `(p+1, σ)` first and then `(a, σ)`; `JSplit(a)`
admits `(a, σ)` first and then `(p+1, σ)`; `Jump(a)` admits `(a, σ)`;
`Reject` drops the thread leaving the list untouched; and any consuming
instruction, `Match` or `WordBoundary` appends `(p, σ)` as-is.  Order of
admission is priority order (earlier call appends earlier). -/
theorem c5_closure_case_analysis {T U S I : Type} (upd : S → U → ProgramState T → S × Bool)
    (prog : Program T U I) (fuel : Nat) (ps : ProgramState T) (σ : S) (acc : List (Thread S)) :
    (∀ a, prog.prog.get? ps.instruction_ptr = some (.Split a) →
      addThread upd prog (fuel + 1) ps σ acc =
        (addThread upd prog fuel ps.increment_ip σ acc).bind
          (addThread upd prog fuel (ps.with_ip a) σ))
    ∧ (∀ a, prog.prog.get? ps.instruction_ptr = some (.JSplit a) →
      addThread upd prog (fuel + 1) ps σ acc =
        (addThread upd prog fuel (ps.with_ip a) σ acc).bind
          (addThread upd prog fuel ps.increment_ip σ))
    ∧ (∀ a, prog.prog.get? ps.instruction_ptr = some (.Jump a) →
      addThread upd prog (fuel + 1) ps σ acc =
        addThread upd prog fuel (ps.with_ip a) σ acc)
    ∧ (prog.prog.get? ps.instruction_ptr = some .Reject →
      addThread upd prog (fuel + 1) ps σ acc = .ok acc)
    ∧ (∀ instr, prog.prog.get? ps.instruction_ptr = some instr → instr.stoppable = true →
      addThread upd prog (fuel + 1) ps σ acc = .ok (acc ++ [⟨ps.instruction_ptr, σ⟩])) := by
  refine ⟨fun a h => ?_, fun a h => ?_, fun a h => ?_, fun h => ?_, fun instr h hs => ?_⟩
  · simp only [addThread, h]; rfl
  · simp only [addThread, h]; rfl
  · simp only [addThread, h]
  · simp only [addThread, h]
  · cases instr with
    | Token t => simp only [addThread, h]
    | Any => simp only [addThread, h]
    | Map m => simp only [addThread, h]
    | Set st => simp only [addThread, h]
    | WordBoundary => simp only [addThread, h]
    | Match => simp only [addThread, h]
    | Split a => exact absurd hs (by simp [Instr.stoppable])
    | JSplit a => exact absurd hs (by simp [Instr.stoppable])
    | Jump a => exact absurd hs (by simp [Instr.stoppable])
    | UpdateState u => exact absurd hs (by simp [Instr.stoppable])
    | Reject => exact absurd hs (by simp [Instr.stoppable])

/-- Witness for C5 (the `Split` case) at a concrete input. -/
theorem c5_closure_witness :
    addThread (SaveList.update (T := Char)) progC2 3 ⟨0, 0, none⟩ (SaveList.init 1) [] =
      (addThread (SaveList.update (T := Char)) progC2 2
          (ProgramState.increment_ip ⟨0, 0, none⟩) (SaveList.init 1) []).bind
        (addThread (SaveList.update (T := Char)) progC2 2
          (ProgramState.with_ip ⟨0, 0, none⟩ 1) (SaveList.init 1)) :=
  (c5_closure_case_analysis _ _ _ _ _ _).1 1 rfl

/-- C9: `SaveList.init n` is exactly `n` `None` entries, and
`SaveList.update` writes `Some(token_index)` at the slot and returns
`true` when the slot is in range, and returns `false` leaving the vector
unchanged when it is out of range. -/
theorem c9_savelist_init_update {T : Type} :
    (∀ n : Nat, SaveList.init n = List.replicate n none)
    ∧ (∀ (s : SaveList) (u : Nat) (ps : ProgramState T), u < s.length →
        SaveList.update s u ps = (s.set u (some ps.token_index), true))
    ∧ (∀ (s : SaveList) (u : Nat) (ps : ProgramState T), s.length ≤ u →
        SaveList.update s u ps = (s, false)) := by
  refine ⟨fun n => rfl, fun s u ps h => ?_, fun s u ps h => ?_⟩
  · unfold SaveList.update
    cases hg : s.get? u with
    | none =>
      rw [List.get?_eq_none] at hg
      omega
    | some v => rfl
  · unfold SaveList.update
    cases hg : s.get? u with
    | none => rfl
    | some v =>
      obtain ⟨hlt, _⟩ := List.get?_eq_some.mp hg
      omega

/-- Witness for C9 at concrete inputs: an in-range and an out-of-range
slot. -/
theorem c9_savelist_witness :
    SaveList.update (T := Char) [none, none] 0 ⟨5, 7, none⟩ = ([some 7, none], true)
    ∧ SaveList.update (T := Char) [none] 3 ⟨5, 7, none⟩ = ([none], false) := by
  constructor
  · have h := (c9_savelist_init_update (T := Char)).2.1 [none, none] 0 ⟨5, 7, none⟩ (by decide)
    simpa using h
  · exact (c9_savelist_init_update (T := Char)).2.2 [none] 3 ⟨5, 7, none⟩ (by decide)

end RegexVM

namespace RegexVM

/-- Threads that `add_thread` adds beyond those already on the list all
point at stoppable instructions: the closure eliminates the zero-width
ones. -/
theorem addThread_mem {T U S I : Type} (upd : S → U → ProgramState T → S × Bool)
    (prog : Program T U I) :
    ∀ (fuel : Nat) (ps : ProgramState T) (σ : S) (acc l : List (Thread S)),
    addThread upd prog fuel ps σ acc = .ok l →
    ∀ th ∈ l, th ∈ acc ∨ ThreadOk prog th := by
  intro fuel
  induction fuel with
  | zero =>
    intro ps σ acc l h
    simp only [addThread] at h
    exact Except.noConfusion h
  | succ fuel ih =>
    intro ps σ acc l h th hth
    cases hg : prog.prog.get? ps.instruction_ptr with
    | none =>
      simp only [addThread, hg] at h
      exact Except.noConfusion h
    | some instr =>
      cases instr with
      | Split a =>
        simp only [addThread, hg, bind, Except.bind] at h
        split at h
        · exact Except.noConfusion h
        · rename_i t1 h1
          rcases ih (ps.with_ip a) σ t1 l h th hth with h2 | h2
          · exact ih ps.increment_ip σ acc t1 h1 th h2
          · exact Or.inr h2
      | JSplit a =>
        simp only [addThread, hg, bind, Except.bind] at h
        split at h
        · exact Except.noConfusion h
        · rename_i t1 h1
          rcases ih ps.increment_ip σ t1 l h th hth with h2 | h2
          · exact ih (ps.with_ip a) σ acc t1 h1 th h2
          · exact Or.inr h2
      | Jump a =>
        simp only [addThread, hg] at h
        exact ih (ps.with_ip a) σ acc l h th hth
      | UpdateState u =>
        simp only [addThread, hg] at h
        exact ih ps.increment_ip (upd σ u ps).1 acc l h th hth
      | Reject =>
        simp only [addThread, hg, Except.ok.injEq] at h
        exact Or.inl (h ▸ hth)
      | Token t =>
        simp only [addThread, hg, Except.ok.injEq] at h
        subst h
        rcases List.mem_append.mp hth with h2 | h2
        · exact Or.inl h2
        · rcases List.mem_singleton.mp h2 with rfl
          exact Or.inr ⟨.Token t, hg, rfl⟩
      | Any =>
        simp only [addThread, hg, Except.ok.injEq] at h
        subst h
        rcases List.mem_append.mp hth with h2 | h2
        · exact Or.inl h2
        · rcases List.mem_singleton.mp h2 with rfl
          exact Or.inr ⟨.Any, hg, rfl⟩
      | Map m =>
        simp only [addThread, hg, Except.ok.injEq] at h
        subst h
        rcases List.mem_append.mp hth with h2 | h2
        · exact Or.inl h2
        · rcases List.mem_singleton.mp h2 with rfl
          exact Or.inr ⟨.Map m, hg, rfl⟩
      | Set st =>
        simp only [addThread, hg, Except.ok.injEq] at h
        subst h
        rcases List.mem_append.mp hth with h2 | h2
        · exact Or.inl h2
        · rcases List.mem_singleton.mp h2 with rfl
          exact Or.inr ⟨.Set st, hg, rfl⟩
      | WordBoundary =>
        simp only [addThread, hg, Except.ok.injEq] at h
        subst h
        rcases List.mem_append.mp hth with h2 | h2
        · exact Or.inl h2
        · rcases List.mem_singleton.mp h2 with rfl
          exact Or.inr ⟨.WordBoundary, hg, rfl⟩
      | Match =>
        simp only [addThread, hg, Except.ok.injEq] at h
        subst h
        rcases List.mem_append.mp hth with h2 | h2
        · exact Or.inl h2
        · rcases List.mem_singleton.mp h2 with rfl
          exact Or.inr ⟨.Match, hg, rfl⟩

/-- The closure never reaches the main loop's `unreachable!()`: its only
failure modes are fuel exhaustion and an out-of-range pc. -/
theorem addThread_ne_unreachable {T U S I : Type} (upd : S → U → ProgramState T → S × Bool)
    (prog : Program T U I) :
    ∀ (fuel : Nat) (ps : ProgramState T) (σ : S) (acc : List (Thread S)),
    addThread upd prog fuel ps σ acc ≠ .error .unreachableInstr := by
  intro fuel
  induction fuel with
  | zero =>
    intro ps σ acc h
    simp only [addThread, Except.error.injEq] at h
    exact VmError.noConfusion h
  | succ fuel ih =>
    intro ps σ acc h
    cases hg : prog.prog.get? ps.instruction_ptr with
    | none =>
      simp only [addThread, hg, Except.error.injEq] at h
      exact VmError.noConfusion h
    | some instr =>
      cases instr with
      | Split a =>
        simp only [addThread, hg, bind, Except.bind] at h
        split at h
        · rename_i h1
          rw [h] at h1
          exact ih _ _ _ h1
        · exact ih _ _ _ h
      | JSplit a =>
        simp only [addThread, hg, bind, Except.bind] at h
        split at h
        · rename_i h1
          rw [h] at h1
          exact ih _ _ _ h1
        · exact ih _ _ _ h
      | Jump a =>
        simp only [addThread, hg] at h
        exact ih _ _ _ h
      | UpdateState u =>
        simp only [addThread, hg] at h
        exact ih _ _ _ h
      | Reject => simp only [addThread, hg] at h; exact Except.noConfusion h
      | Token t => simp only [addThread, hg] at h; exact Except.noConfusion h
      | Any => simp only [addThread, hg] at h; exact Except.noConfusion h
      | Map m => simp only [addThread, hg] at h; exact Except.noConfusion h
      | Set st => simp only [addThread, hg] at h; exact Except.noConfusion h
      | WordBoundary => simp only [addThread, hg] at h; exact Except.noConfusion h
      | Match => simp only [addThread, hg] at h; exact Except.noConfusion h

end RegexVM

namespace RegexVM

/-- One main-loop dispatch on a thread whose pc is stoppable cannot hit
the `unreachable!()` arm. -/
theorem stepThread_ne_unreachable {T U S I : Type} [DecidableEq T]
    (upd : S → U → ProgramState T → S × Bool) (prog : Program T U I) (fuel : Nat)
    (wb : Bool) (idx i : Nat) (tok : T) (th : Thread S) (next : List (Thread S))
    (states : List S) (hok : ThreadOk prog th) :
    stepThread upd prog fuel wb idx i tok th next states ≠ .error .unreachableInstr := by
  obtain ⟨instr, hg, hs⟩ := hok
  intro h
  cases instr with
  | Token t =>
    simp only [stepThread, hg, bind, Except.bind] at h
    split at h
    · split at h
      · rename_i h1
        injection h with h2
        rw [h2] at h1
        exact addThread_ne_unreachable upd prog _ _ _ _ h1
      · exact Except.noConfusion h
    · exact Except.noConfusion h
  | Set st =>
    simp only [stepThread, hg, bind, Except.bind] at h
    split at h
    · split at h
      · rename_i h1
        injection h with h2
        rw [h2] at h1
        exact addThread_ne_unreachable upd prog _ _ _ _ h1
      · exact Except.noConfusion h
    · exact Except.noConfusion h
  | Map m =>
    simp only [stepThread, hg, bind, Except.bind] at h
    split at h
    · rename_i h1
      injection h with h2
      rw [h2] at h1
      exact addThread_ne_unreachable upd prog _ _ _ _ h1
    · exact Except.noConfusion h
  | Any =>
    simp only [stepThread, hg, bind, Except.bind] at h
    split at h
    · rename_i h1
      injection h with h2
      rw [h2] at h1
      exact addThread_ne_unreachable upd prog _ _ _ _ h1
    · exact Except.noConfusion h
  | WordBoundary =>
    simp only [stepThread, hg, bind, Except.bind] at h
    split at h
    · split at h
      · rename_i h1
        injection h with h2
        rw [h2] at h1
        exact addThread_ne_unreachable upd prog _ _ _ _ h1
      · exact Except.noConfusion h
    · exact Except.noConfusion h
  | Match => simp only [stepThread, hg, bind, Except.bind] at h; exact Except.noConfusion h
  | Split a => simp [Instr.stoppable] at hs
  | JSplit a => simp [Instr.stoppable] at hs
  | Jump a => simp [Instr.stoppable] at hs
  | UpdateState u => simp [Instr.stoppable] at hs
  | Reject => simp [Instr.stoppable] at hs

/-- Threads that one main-loop dispatch adds to `next` all point at
stoppable instructions. -/
theorem stepThread_mem {T U S I : Type} [DecidableEq T]
    (upd : S → U → ProgramState T → S × Bool) (prog : Program T U I) (fuel : Nat)
    (wb : Bool) (idx i : Nat) (tok : T) (th : Thread S) (next : List (Thread S))
    (states : List S) (n2 : List (Thread S)) (s2 : List S)
    (h : stepThread upd prog fuel wb idx i tok th next states = .ok (n2, s2)) :
    ∀ t ∈ n2, t ∈ next ∨ ThreadOk prog t := by
  intro t ht
  cases hg : prog.prog.get? th.pc with
  | none =>
    simp only [stepThread, hg, bind, Except.bind] at h
    exact Except.noConfusion h
  | some instr =>
    cases instr with
    | Token tk =>
      simp only [stepThread, hg, bind, Except.bind] at h
      split at h
      · split at h
        · exact Except.noConfusion h
        · rename_i t1 h1
          simp only [Except.ok.injEq, Prod.mk.injEq] at h
          obtain ⟨rfl, rfl⟩ := h
          exact addThread_mem upd prog _ _ _ _ _ h1 t ht
      · simp only [Except.ok.injEq, Prod.mk.injEq] at h
        obtain ⟨rfl, rfl⟩ := h
        exact Or.inl ht
    | Set st =>
      simp only [stepThread, hg, bind, Except.bind] at h
      split at h
      · split at h
        · exact Except.noConfusion h
        · rename_i t1 h1
          simp only [Except.ok.injEq, Prod.mk.injEq] at h
          obtain ⟨rfl, rfl⟩ := h
          exact addThread_mem upd prog _ _ _ _ _ h1 t ht
      · simp only [Except.ok.injEq, Prod.mk.injEq] at h
        obtain ⟨rfl, rfl⟩ := h
        exact Or.inl ht
    | Map m =>
      simp only [stepThread, hg, bind, Except.bind] at h
      split at h
      · exact Except.noConfusion h
      · rename_i t1 h1
        simp only [Except.ok.injEq, Prod.mk.injEq] at h
        obtain ⟨rfl, rfl⟩ := h
        exact addThread_mem upd prog _ _ _ _ _ h1 t ht
    | Any =>
      simp only [stepThread, hg, bind, Except.bind] at h
      split at h
      · exact Except.noConfusion h
      · rename_i t1 h1
        simp only [Except.ok.injEq, Prod.mk.injEq] at h
        obtain ⟨rfl, rfl⟩ := h
        exact addThread_mem upd prog _ _ _ _ _ h1 t ht
    | WordBoundary =>
      simp only [stepThread, hg, bind, Except.bind] at h
      split at h
      · split at h
        · exact Except.noConfusion h
        · rename_i t1 h1
          simp only [Except.ok.injEq, Prod.mk.injEq] at h
          obtain ⟨rfl, rfl⟩ := h
          exact addThread_mem upd prog _ _ _ _ _ h1 t ht
      · simp only [Except.ok.injEq, Prod.mk.injEq] at h
        obtain ⟨rfl, rfl⟩ := h
        exact Or.inl ht
    | Match =>
      simp only [stepThread, hg, bind, Except.bind, Except.ok.injEq, Prod.mk.injEq] at h
      obtain ⟨rfl, rfl⟩ := h
      exact Or.inl ht
    | Split a => simp only [stepThread, hg, bind, Except.bind] at h; exact Except.noConfusion h
    | JSplit a => simp only [stepThread, hg, bind, Except.bind] at h; exact Except.noConfusion h
    | Jump a => simp only [stepThread, hg, bind, Except.bind] at h; exact Except.noConfusion h
    | UpdateState u => simp only [stepThread, hg, bind, Except.bind] at h; exact Except.noConfusion h
    | Reject => simp only [stepThread, hg, bind, Except.bind] at h; exact Except.noConfusion h

end RegexVM

namespace RegexVM

/-- Draining the current thread list cannot hit `unreachable!()` when
every current thread is stoppable. -/
theorem runThreads_ne_unreachable {T U S I : Type} [DecidableEq T]
    (upd : S → U → ProgramState T → S × Bool) (prog : Program T U I) (fuel : Nat)
    (wb : Bool) (idx i : Nat) (tok : T) :
    ∀ (curr next : List (Thread S)) (states : List S),
    (∀ t ∈ curr, ThreadOk prog t) →
    runThreads upd prog fuel wb idx i tok curr next states ≠ .error .unreachableInstr := by
  intro curr
  induction curr with
  | nil =>
    intro next states hok h
    simp only [runThreads] at h
    exact Except.noConfusion h
  | cons th rest ihc =>
    intro next states hok h
    simp only [runThreads, bind, Except.bind] at h
    split at h
    · rename_i h1
      injection h with h2
      rw [h2] at h1
      exact stepThread_ne_unreachable upd prog fuel wb idx i tok th next states
        (hok th (List.mem_cons_self th rest)) h1
    · rename_i p h1
      obtain ⟨n1, s1⟩ := p
      exact ihc n1 s1 (fun t ht => hok t (List.mem_cons_of_mem th ht)) h

/-- Draining the current thread list only ever fills `next` with threads
pointing at stoppable instructions. -/
theorem runThreads_mem {T U S I : Type} [DecidableEq T]
    (upd : S → U → ProgramState T → S × Bool) (prog : Program T U I) (fuel : Nat)
    (wb : Bool) (idx i : Nat) (tok : T) :
    ∀ (curr next : List (Thread S)) (states : List S) (n2 : List (Thread S)) (s2 : List S),
    (∀ t ∈ next, ThreadOk prog t) →
    runThreads upd prog fuel wb idx i tok curr next states = .ok (n2, s2) →
    ∀ t ∈ n2, ThreadOk prog t := by
  intro curr
  induction curr with
  | nil =>
    intro next states n2 s2 hnext h
    simp only [runThreads, Except.ok.injEq, Prod.mk.injEq] at h
    obtain ⟨rfl, rfl⟩ := h
    exact hnext
  | cons th rest ihc =>
    intro next states n2 s2 hnext h
    simp only [runThreads, bind, Except.bind] at h
    split at h
    · exact Except.noConfusion h
    · rename_i p h1
      obtain ⟨n1, s1⟩ := p
      refine ihc n1 s1 n2 s2 (fun t ht => ?_) h
      rcases stepThread_mem upd prog fuel wb idx i tok th next states n1 s1 h1 t ht with h2 | h2
      · exact hnext t h2
      · exact h2

/-- The first final sweep cannot hit `unreachable!()` (its only failures
are index panics and fuel exhaustion inside the closure). -/
theorem finalSweepWB_ne_unreachable {T U S I : Type}
    (upd : S → U → ProgramState T → S × Bool) (prog : Program T U I) (fuel : Nat)
    (word : Bool) (i : Nat) :
    ∀ (curr next : List (Thread S)) (states : List S),
    finalSweepWB upd prog fuel word i curr next states ≠ .error .unreachableInstr := by
  intro curr
  induction curr with
  | nil =>
    intro next states h
    simp only [finalSweepWB] at h
    exact Except.noConfusion h
  | cons th rest ihc =>
    intro next states h
    cases hg : prog.prog.get? th.pc with
    | none =>
      simp only [finalSweepWB, hg, Except.error.injEq] at h
      exact VmError.noConfusion h
    | some instr =>
      cases instr with
      | WordBoundary =>
        simp only [finalSweepWB, hg, bind, Except.bind] at h
        split at h
        · split at h
          · rename_i h1
            injection h with h2
            rw [h2] at h1
            exact addThread_ne_unreachable upd prog _ _ _ _ h1
          · exact ihc _ _ h
        · exact ihc _ _ h
      | Match =>
        simp only [finalSweepWB, hg] at h
        exact ihc _ _ h
      | Token t => simp only [finalSweepWB, hg] at h; exact ihc _ _ h
      | Any => simp only [finalSweepWB, hg] at h; exact ihc _ _ h
      | Map m => simp only [finalSweepWB, hg] at h; exact ihc _ _ h
      | Set st => simp only [finalSweepWB, hg] at h; exact ihc _ _ h
      | Split a => simp only [finalSweepWB, hg] at h; exact ihc _ _ h
      | JSplit a => simp only [finalSweepWB, hg] at h; exact ihc _ _ h
      | Jump a => simp only [finalSweepWB, hg] at h; exact ihc _ _ h
      | UpdateState u => simp only [finalSweepWB, hg] at h; exact ihc _ _ h
      | Reject => simp only [finalSweepWB, hg] at h; exact ihc _ _ h

/-- The second final sweep cannot hit `unreachable!()`. -/
theorem finalSweepMatch_ne_unreachable {T U S I : Type} (prog : Program T U I) :
    ∀ (next : List (Thread S)) (states : List S),
    finalSweepMatch prog next states ≠ .error .unreachableInstr := by
  intro next
  induction next with
  | nil =>
    intro states h
    simp only [finalSweepMatch] at h
    exact Except.noConfusion h
  | cons th rest ihc =>
    intro states h
    cases hg : prog.prog.get? th.pc with
    | none =>
      simp only [finalSweepMatch, hg, Except.error.injEq] at h
      exact VmError.noConfusion h
    | some instr =>
      cases instr with
      | Match => simp only [finalSweepMatch, hg] at h; exact ihc _ h
      | WordBoundary => simp only [finalSweepMatch, hg] at h; exact ihc _ h
      | Token t => simp only [finalSweepMatch, hg] at h; exact ihc _ h
      | Any => simp only [finalSweepMatch, hg] at h; exact ihc _ h
      | Map m => simp only [finalSweepMatch, hg] at h; exact ihc _ h
      | Set st => simp only [finalSweepMatch, hg] at h; exact ihc _ h
      | Split a => simp only [finalSweepMatch, hg] at h; exact ihc _ h
      | JSplit a => simp only [finalSweepMatch, hg] at h; exact ihc _ h
      | Jump a => simp only [finalSweepMatch, hg] at h; exact ihc _ h
      | UpdateState u => simp only [finalSweepMatch, hg] at h; exact ihc _ h
      | Reject => simp only [finalSweepMatch, hg] at h; exact ihc _ h

/-- The main loop cannot hit `unreachable!()` starting from a list of
stoppable threads. -/
theorem execLoop_ne_unreachable {T U S I : Type} [DecidableEq T]
    (upd : S → U → ProgramState T → S × Bool) (prog : Program T U I) (fuel : Nat)
    (is_word : T → Bool) :
    ∀ (input : List (Nat × T)) (word : Bool) (i : Nat) (curr : List (Thread S))
      (states : List S),
    (∀ t ∈ curr, ThreadOk prog t) →
    execLoop upd prog fuel is_word input word i curr states ≠ .error .unreachableInstr := by
  intro input
  induction input with
  | nil =>
    intro word i curr states hok h
    simp only [execLoop, finalPhase, bind, Except.bind] at h
    split at h
    · rename_i h1
      injection h with h2
      rw [h2] at h1
      exact finalSweepWB_ne_unreachable upd prog fuel word i curr [] states h1
    · rename_i p h1
      obtain ⟨n1, s1⟩ := p
      exact finalSweepMatch_ne_unreachable prog n1 s1 h
  | cons p rest ihc =>
    obtain ⟨idx, tok⟩ := p
    intro word i curr states hok h
    simp only [execLoop, bind, Except.bind] at h
    split at h
    · rename_i h1
      injection h with h2
      rw [h2] at h1
      exact runThreads_ne_unreachable upd prog fuel _ idx i tok curr [] states hok h1
    · rename_i q h1
      obtain ⟨n1, s1⟩ := q
      exact ihc (is_word tok) idx n1 s1
        (runThreads_mem upd prog fuel _ idx i tok curr [] states n1 s1
          (fun t ht => absurd ht (List.not_mem_nil t)) h1) h

end RegexVM

namespace RegexVM

/-- C7: every thread in an active thread list points at a consuming
instruction, `WordBoundary` or `Match` — `add_thread` eliminates the
zero-width `Split`/`JSplit`/`Jump`/`UpdateState`/`Reject` on admission —
and consequently the whole VM can never reach the `unreachable!()` arm of
the main-loop dispatch, whatever the program, fuel and input. -/
theorem c7_active_lists_stoppable {T U S I : Type} [DecidableEq T]
    (upd : S → U → ProgramState T → S × Bool) (init : I → S) (is_word : T → Bool)
    (prog : Program T U I) :
    (∀ (fuel : Nat) (ps : ProgramState T) (σ : S) (acc l : List (Thread S)),
      addThread upd prog fuel ps σ acc = .ok l →
      (∀ th ∈ acc, ThreadOk prog th) → ∀ th ∈ l, ThreadOk prog th)
    ∧ (∀ (fuel : Nat) (input : List (Nat × T)),
      exec upd init is_word prog fuel input ≠ .error .unreachableInstr) := by
  constructor
  · intro fuel ps σ acc l h hacc th hth
    rcases addThread_mem upd prog fuel ps σ acc l h th hth with h2 | h2
    · exact hacc th h2
    · exact h2
  · intro fuel input h
    simp only [exec, bind, Except.bind] at h
    split at h
    · rename_i h1
      injection h with h2
      rw [h2] at h1
      exact addThread_ne_unreachable upd prog _ _ _ _ h1
    · rename_i curr h1
      refine execLoop_ne_unreachable upd prog fuel is_word input false 0 curr []
        (fun t ht => ?_) h
      rcases addThread_mem upd prog fuel _ _ _ _ h1 t ht with h2 | h2
      · exact absurd h2 (List.not_mem_nil t)
      · exact h2

/-- Witness for C7 at a concrete input: the seeded list of `progC2`
consists of stoppable threads. -/
theorem c7_stoppable_witness : ThreadOk progC2 (⟨1, [none]⟩ : Thread SaveList) :=
  (c7_active_lists_stoppable (SaveList.update (T := Char)) SaveList.init charIsWord progC2).1
    5 ⟨0, 0, none⟩ [none] [] [⟨1, [none]⟩, ⟨1, [none]⟩] (by decide)
    (fun th ht => absurd ht (List.not_mem_nil th))
    ⟨1, [none]⟩ (List.mem_cons_self _ _)

/-- Every state reached through the closure satisfies any property
preserved by `update`, when the admitted state and the accumulated
threads already satisfy it. -/
theorem addThread_state_inv {T U S I : Type} (upd : S → U → ProgramState T → S × Bool)
    (prog : Program T U I) (P : S → Prop)
    (hupd : ∀ (s : S) (u : U) (ps : ProgramState T), P s → P (upd s u ps).1) :
    ∀ (fuel : Nat) (ps : ProgramState T) (σ : S) (acc l : List (Thread S)),
    addThread upd prog fuel ps σ acc = .ok l → P σ → (∀ th ∈ acc, P th.state) →
    ∀ th ∈ l, P th.state := by
  intro fuel
  induction fuel with
  | zero =>
    intro ps σ acc l h hσ hacc
    simp only [addThread] at h
    exact Except.noConfusion h
  | succ fuel ih =>
    intro ps σ acc l h hσ hacc
    cases hg : prog.prog.get? ps.instruction_ptr with
    | none =>
      simp only [addThread, hg] at h
      exact Except.noConfusion h
    | some instr =>
      cases instr with
      | Split a =>
        simp only [addThread, hg, bind, Except.bind] at h
        split at h
        · exact Except.noConfusion h
        · rename_i t1 h1
          exact ih (ps.with_ip a) σ t1 l h hσ (ih ps.increment_ip σ acc t1 h1 hσ hacc)
      | JSplit a =>
        simp only [addThread, hg, bind, Except.bind] at h
        split at h
        · exact Except.noConfusion h
        · rename_i t1 h1
          exact ih ps.increment_ip σ t1 l h hσ (ih (ps.with_ip a) σ acc t1 h1 hσ hacc)
      | Jump a =>
        simp only [addThread, hg] at h
        exact ih (ps.with_ip a) σ acc l h hσ hacc
      | UpdateState u =>
        simp only [addThread, hg] at h
        exact ih ps.increment_ip (upd σ u ps).1 acc l h (hupd σ u ps hσ) hacc
      | Reject =>
        simp only [addThread, hg, Except.ok.injEq] at h
        subst h
        exact hacc
      | Token t =>
        simp only [addThread, hg, Except.ok.injEq] at h
        subst h
        intro th hth
        rcases List.mem_append.mp hth with h2 | h2
        · exact hacc th h2
        · rcases List.mem_singleton.mp h2 with rfl
          exact hσ
      | Any =>
        simp only [addThread, hg, Except.ok.injEq] at h
        subst h
        intro th hth
        rcases List.mem_append.mp hth with h2 | h2
        · exact hacc th h2
        · rcases List.mem_singleton.mp h2 with rfl
          exact hσ
      | Map m =>
        simp only [addThread, hg, Except.ok.injEq] at h
        subst h
        intro th hth
        rcases List.mem_append.mp hth with h2 | h2
        · exact hacc th h2
        · rcases List.mem_singleton.mp h2 with rfl
          exact hσ
      | Set st =>
        simp only [addThread, hg, Except.ok.injEq] at h
        subst h
        intro th hth
        rcases List.mem_append.mp hth with h2 | h2
        · exact hacc th h2
        · rcases List.mem_singleton.mp h2 with rfl
          exact hσ
      | WordBoundary =>
        simp only [addThread, hg, Except.ok.injEq] at h
        subst h
        intro th hth
        rcases List.mem_append.mp hth with h2 | h2
        · exact hacc th h2
        · rcases List.mem_singleton.mp h2 with rfl
          exact hσ
      | Match =>
        simp only [addThread, hg, Except.ok.injEq] at h
        subst h
        intro th hth
        rcases List.mem_append.mp hth with h2 | h2
        · exact hacc th h2
        · rcases List.mem_singleton.mp h2 with rfl
          exact hσ

end RegexVM

namespace RegexVM

/-- One main-loop dispatch preserves any state property preserved by
`update`. -/
theorem stepThread_state_inv {T U S I : Type} [DecidableEq T]
    (upd : S → U → ProgramState T → S × Bool) (prog : Program T U I) (P : S → Prop)
    (hupd : ∀ (s : S) (u : U) (ps : ProgramState T), P s → P (upd s u ps).1)
    (fuel : Nat) (wb : Bool) (idx i : Nat) (tok : T) (th : Thread S)
    (next : List (Thread S)) (states : List S) (n2 : List (Thread S)) (s2 : List S)
    (h : stepThread upd prog fuel wb idx i tok th next states = .ok (n2, s2))
    (hth : P th.state) (hnext : ∀ t ∈ next, P t.state) (hstates : ∀ s ∈ states, P s) :
    (∀ t ∈ n2, P t.state) ∧ (∀ s ∈ s2, P s) := by
  cases hg : prog.prog.get? th.pc with
  | none =>
    simp only [stepThread, hg] at h
    exact Except.noConfusion h
  | some instr =>
    cases instr with
    | Token tk =>
      simp only [stepThread, hg, bind, Except.bind] at h
      split at h
      · split at h
        · exact Except.noConfusion h
        · rename_i t1 h1
          simp only [Except.ok.injEq, Prod.mk.injEq] at h
          obtain ⟨rfl, rfl⟩ := h
          exact ⟨addThread_state_inv upd prog P hupd _ _ _ _ _ h1 hth hnext, hstates⟩
      · simp only [Except.ok.injEq, Prod.mk.injEq] at h
        obtain ⟨rfl, rfl⟩ := h
        exact ⟨hnext, hstates⟩
    | Set st =>
      simp only [stepThread, hg, bind, Except.bind] at h
      split at h
      · split at h
        · exact Except.noConfusion h
        · rename_i t1 h1
          simp only [Except.ok.injEq, Prod.mk.injEq] at h
          obtain ⟨rfl, rfl⟩ := h
          exact ⟨addThread_state_inv upd prog P hupd _ _ _ _ _ h1 hth hnext, hstates⟩
      · simp only [Except.ok.injEq, Prod.mk.injEq] at h
        obtain ⟨rfl, rfl⟩ := h
        exact ⟨hnext, hstates⟩
    | Map m =>
      simp only [stepThread, hg, bind, Except.bind] at h
      split at h
      · exact Except.noConfusion h
      · rename_i t1 h1
        simp only [Except.ok.injEq, Prod.mk.injEq] at h
        obtain ⟨rfl, rfl⟩ := h
        exact ⟨addThread_state_inv upd prog P hupd _ _ _ _ _ h1 hth hnext, hstates⟩
    | Any =>
      simp only [stepThread, hg, bind, Except.bind] at h
      split at h
      · exact Except.noConfusion h
      · rename_i t1 h1
        simp only [Except.ok.injEq, Prod.mk.injEq] at h
        obtain ⟨rfl, rfl⟩ := h
        exact ⟨addThread_state_inv upd prog P hupd _ _ _ _ _ h1 hth hnext, hstates⟩
    | WordBoundary =>
      simp only [stepThread, hg, bind, Except.bind] at h
      split at h
      · split at h
        · exact Except.noConfusion h
        · rename_i t1 h1
          simp only [Except.ok.injEq, Prod.mk.injEq] at h
          obtain ⟨rfl, rfl⟩ := h
          exact ⟨addThread_state_inv upd prog P hupd _ _ _ _ _ h1 hth hnext, hstates⟩
      · simp only [Except.ok.injEq, Prod.mk.injEq] at h
        obtain ⟨rfl, rfl⟩ := h
        exact ⟨hnext, hstates⟩
    | Match =>
      simp only [stepThread, hg, Except.ok.injEq, Prod.mk.injEq] at h
      obtain ⟨rfl, rfl⟩ := h
      refine ⟨hnext, fun s hs => ?_⟩
      rcases List.mem_append.mp hs with h2 | h2
      · exact hstates s h2
      · rcases List.mem_singleton.mp h2 with rfl
        exact hth
    | Split a => simp only [stepThread, hg] at h; exact Except.noConfusion h
    | JSplit a => simp only [stepThread, hg] at h; exact Except.noConfusion h
    | Jump a => simp only [stepThread, hg] at h; exact Except.noConfusion h
    | UpdateState u => simp only [stepThread, hg] at h; exact Except.noConfusion h
    | Reject => simp only [stepThread, hg] at h; exact Except.noConfusion h

/-- Draining the current list preserves any state property preserved by
`update`. -/
theorem runThreads_state_inv {T U S I : Type} [DecidableEq T]
    (upd : S → U → ProgramState T → S × Bool) (prog : Program T U I) (P : S → Prop)
    (hupd : ∀ (s : S) (u : U) (ps : ProgramState T), P s → P (upd s u ps).1)
    (fuel : Nat) (wb : Bool) (idx i : Nat) (tok : T) :
    ∀ (curr next : List (Thread S)) (states : List S) (n2 : List (Thread S)) (s2 : List S),
    runThreads upd prog fuel wb idx i tok curr next states = .ok (n2, s2) →
    (∀ t ∈ curr, P t.state) → (∀ t ∈ next, P t.state) → (∀ s ∈ states, P s) →
    (∀ t ∈ n2, P t.state) ∧ (∀ s ∈ s2, P s) := by
  intro curr
  induction curr with
  | nil =>
    intro next states n2 s2 h hcurr hnext hstates
    simp only [runThreads, Except.ok.injEq, Prod.mk.injEq] at h
    obtain ⟨rfl, rfl⟩ := h
    exact ⟨hnext, hstates⟩
  | cons th rest ihc =>
    intro next states n2 s2 h hcurr hnext hstates
    simp only [runThreads, bind, Except.bind] at h
    split at h
    · exact Except.noConfusion h
    · rename_i p h1
      obtain ⟨n1, s1⟩ := p
      obtain ⟨hn1, hs1⟩ := stepThread_state_inv upd prog P hupd fuel wb idx i tok th
        next states n1 s1 h1 (hcurr th (List.mem_cons_self th rest)) hnext hstates
      exact ihc n1 s1 n2 s2 h (fun t ht => hcurr t (List.mem_cons_of_mem th ht)) hn1 hs1

/-- The first final sweep preserves any state property preserved by
`update`. -/
theorem finalSweepWB_state_inv {T U S I : Type}
    (upd : S → U → ProgramState T → S × Bool) (prog : Program T U I) (P : S → Prop)
    (hupd : ∀ (s : S) (u : U) (ps : ProgramState T), P s → P (upd s u ps).1)
    (fuel : Nat) (word : Bool) (i : Nat) :
    ∀ (curr next : List (Thread S)) (states : List S) (n2 : List (Thread S)) (s2 : List S),
    finalSweepWB upd prog fuel word i curr next states = .ok (n2, s2) →
    (∀ t ∈ curr, P t.state) → (∀ t ∈ next, P t.state) → (∀ s ∈ states, P s) →
    (∀ t ∈ n2, P t.state) ∧ (∀ s ∈ s2, P s) := by
  intro curr
  induction curr with
  | nil =>
    intro next states n2 s2 h hcurr hnext hstates
    simp only [finalSweepWB, Except.ok.injEq, Prod.mk.injEq] at h
    obtain ⟨rfl, rfl⟩ := h
    exact ⟨hnext, hstates⟩
  | cons th rest ihc =>
    intro next states n2 s2 h hcurr hnext hstates
    have hth : P th.state := hcurr th (List.mem_cons_self th rest)
    have hrest : ∀ t ∈ rest, P t.state := fun t ht => hcurr t (List.mem_cons_of_mem th ht)
    cases hg : prog.prog.get? th.pc with
    | none =>
      simp only [finalSweepWB, hg] at h
      exact Except.noConfusion h
    | some instr =>
      cases instr with
      | WordBoundary =>
        simp only [finalSweepWB, hg, bind, Except.bind] at h
        split at h
        · split at h
          · exact Except.noConfusion h
          · rename_i t1 h1
            exact ihc t1 states n2 s2 h hrest
              (addThread_state_inv upd prog P hupd _ _ _ _ _ h1 hth hnext) hstates
        · exact ihc next states n2 s2 h hrest hnext hstates
      | Match =>
        simp only [finalSweepWB, hg] at h
        refine ihc next (states ++ [th.state]) n2 s2 h hrest hnext (fun s hs => ?_)
        rcases List.mem_append.mp hs with h2 | h2
        · exact hstates s h2
        · rcases List.mem_singleton.mp h2 with rfl
          exact hth
      | Token t =>
        simp only [finalSweepWB, hg] at h
        exact ihc next states n2 s2 h hrest hnext hstates
      | Any =>
        simp only [finalSweepWB, hg] at h
        exact ihc next states n2 s2 h hrest hnext hstates
      | Map m =>
        simp only [finalSweepWB, hg] at h
        exact ihc next states n2 s2 h hrest hnext hstates
      | Set st =>
        simp only [finalSweepWB, hg] at h
        exact ihc next states n2 s2 h hrest hnext hstates
      | Split a =>
        simp only [finalSweepWB, hg] at h
        exact ihc next states n2 s2 h hrest hnext hstates
      | JSplit a =>
        simp only [finalSweepWB, hg] at h
        exact ihc next states n2 s2 h hrest hnext hstates
      | Jump a =>
        simp only [finalSweepWB, hg] at h
        exact ihc next states n2 s2 h hrest hnext hstates
      | UpdateState u =>
        simp only [finalSweepWB, hg] at h
        exact ihc next states n2 s2 h hrest hnext hstates
      | Reject =>
        simp only [finalSweepWB, hg] at h
        exact ihc next states n2 s2 h hrest hnext hstates

/-- The second final sweep only moves thread states into the result
list. -/
theorem finalSweepMatch_state_inv {T U S I : Type} (prog : Program T U I) (P : S → Prop) :
    ∀ (next : List (Thread S)) (states : List S) (out : List S),
    finalSweepMatch prog next states = .ok out →
    (∀ t ∈ next, P t.state) → (∀ s ∈ states, P s) → ∀ s ∈ out, P s := by
  intro next
  induction next with
  | nil =>
    intro states out h hnext hstates
    simp only [finalSweepMatch, Except.ok.injEq] at h
    subst h
    exact hstates
  | cons th rest ihc =>
    intro states out h hnext hstates
    have hth : P th.state := hnext th (List.mem_cons_self th rest)
    have hrest : ∀ t ∈ rest, P t.state := fun t ht => hnext t (List.mem_cons_of_mem th ht)
    cases hg : prog.prog.get? th.pc with
    | none =>
      simp only [finalSweepMatch, hg] at h
      exact Except.noConfusion h
    | some instr =>
      cases instr with
      | Match =>
        simp only [finalSweepMatch, hg] at h
        refine ihc (states ++ [th.state]) out h hrest (fun s hs => ?_)
        rcases List.mem_append.mp hs with h2 | h2
        · exact hstates s h2
        · rcases List.mem_singleton.mp h2 with rfl
          exact hth
      | WordBoundary => simp only [finalSweepMatch, hg] at h; exact ihc states out h hrest hstates
      | Token t => simp only [finalSweepMatch, hg] at h; exact ihc states out h hrest hstates
      | Any => simp only [finalSweepMatch, hg] at h; exact ihc states out h hrest hstates
      | Map m => simp only [finalSweepMatch, hg] at h; exact ihc states out h hrest hstates
      | Set st => simp only [finalSweepMatch, hg] at h; exact ihc states out h hrest hstates
      | Split a => simp only [finalSweepMatch, hg] at h; exact ihc states out h hrest hstates
      | JSplit a => simp only [finalSweepMatch, hg] at h; exact ihc states out h hrest hstates
      | Jump a => simp only [finalSweepMatch, hg] at h; exact ihc states out h hrest hstates
      | UpdateState u => simp only [finalSweepMatch, hg] at h; exact ihc states out h hrest hstates
      | Reject => simp only [finalSweepMatch, hg] at h; exact ihc states out h hrest hstates

/-- The whole main loop preserves any state property preserved by
`update`. -/
theorem execLoop_state_inv {T U S I : Type} [DecidableEq T]
    (upd : S → U → ProgramState T → S × Bool) (prog : Program T U I) (P : S → Prop)
    (hupd : ∀ (s : S) (u : U) (ps : ProgramState T), P s → P (upd s u ps).1)
    (fuel : Nat) (is_word : T → Bool) :
    ∀ (input : List (Nat × T)) (word : Bool) (i : Nat) (curr : List (Thread S))
      (states : List S) (out : List S),
    execLoop upd prog fuel is_word input word i curr states = .ok out →
    (∀ t ∈ curr, P t.state) → (∀ s ∈ states, P s) → ∀ s ∈ out, P s := by
  intro input
  induction input with
  | nil =>
    intro word i curr states out h hcurr hstates
    simp only [execLoop, finalPhase, bind, Except.bind] at h
    split at h
    · exact Except.noConfusion h
    · rename_i p h1
      obtain ⟨n1, s1⟩ := p
      obtain ⟨hn1, hs1⟩ := finalSweepWB_state_inv upd prog P hupd fuel word i curr []
        states n1 s1 h1 hcurr (fun t ht => absurd ht (List.not_mem_nil t)) hstates
      exact finalSweepMatch_state_inv prog P n1 s1 out h hn1 hs1
  | cons p rest ihc =>
    obtain ⟨idx, tok⟩ := p
    intro word i curr states out h hcurr hstates
    simp only [execLoop, bind, Except.bind] at h
    split at h
    · exact Except.noConfusion h
    · rename_i q h1
      obtain ⟨n1, s1⟩ := q
      obtain ⟨hn1, hs1⟩ := runThreads_state_inv upd prog P hupd fuel _ idx i tok curr []
        states n1 s1 h1 hcurr (fun t ht => absurd ht (List.not_mem_nil t)) hstates
      exact ihc (is_word tok) idx n1 s1 out h hn1 hs1

/-- Every state in the result of `exec` satisfies any property holding of
the initial state and preserved by `update`. -/
theorem exec_state_inv {T U S I : Type} [DecidableEq T]
    (upd : S → U → ProgramState T → S × Bool) (init : I → S) (is_word : T → Bool)
    (prog : Program T U I) (P : S → Prop)
    (hupd : ∀ (s : S) (u : U) (ps : ProgramState T), P s → P (upd s u ps).1)
    (hinit : P (init prog.state_init)) (fuel : Nat) (input : List (Nat × T))
    (out : List S) (h : exec upd init is_word prog fuel input = .ok out) :
    ∀ σ ∈ out, P σ := by
  simp only [exec, bind, Except.bind] at h
  split at h
  · exact Except.noConfusion h
  · rename_i curr h1
    refine execLoop_state_inv upd prog P hupd fuel is_word input false 0 curr [] out h
      (addThread_state_inv upd prog P hupd fuel _ _ _ _ h1 hinit
        (fun t ht => absurd ht (List.not_mem_nil t)))
      (fun s hs => absurd hs (List.not_mem_nil s))

/-- C10: for a program over the `SaveList` state with init parameter `n`,
every `SaveList` in the result of `exec` has length exactly `n`:
`SaveList.update` never changes the vector's length, so the length fixed
by `init` is an invariant of the whole execution. -/
theorem c10_savelist_length_invariant {T : Type} [DecidableEq T] (is_word : T → Bool)
    (prog : Program T Nat Nat) (fuel : Nat) (input : List (Nat × T)) (out : List SaveList)
    (h : exec SaveList.update SaveList.init is_word prog fuel input = .ok out) :
    ∀ σ ∈ out, σ.length = prog.state_init := by
  refine exec_state_inv SaveList.update SaveList.init is_word prog
    (fun s => s.length = prog.state_init) ?_ ?_ fuel input out h
  · intro s u ps hs
    unfold SaveList.update
    cases hg : s.get? u with
    | none => exact hs
    | some v => simpa [List.length_set] using hs
  · simp [SaveList.init]

/-- Witness for C10 at a concrete input: both results of `progC4` on
`"ducabc "` have the six slots fixed by its init parameter. -/
theorem c10_length_witness :
    List.length [some 3, some 6, some 3, some 5, some 5, some 6] = progC4.state_init :=
  c10_savelist_length_invariant charIsWord progC4 20
    (strStream ['d', 'u', 'c', 'a', 'b', 'c', ' '] 0)
    [[some 3, some 6, some 3, some 5, some 5, some 6],
      [some 3, some 6, some 3, some 4, some 4, some 6]]
    (by rfl) [some 3, some 6, some 3, some 5, some 5, some 6] (List.mem_cons_self _ _)

end RegexVM

namespace RegexVM

/-- The code's first final sweep equals the spec-side description: it
admits boundary successors into the `next` list and moves the states of
`Match` threads (in order) onto the result list, provided every swept
thread has a valid pc. -/
theorem finalSweepWB_spec {T U S I : Type} (upd : S → U → ProgramState T → S × Bool)
    (prog : Program T U I) (fuel : Nat) (word : Bool) (i : Nat) :
    ∀ (curr next : List (Thread S)) (states : List S),
    (∀ th ∈ curr, ∃ instr, prog.prog.get? th.pc = some instr) →
    finalSweepWB upd prog fuel word i curr next states =
      Except.map (fun nx => (nx, states ++ collectMatches prog curr))
        (specSweepWB upd prog fuel word i curr next) := by
  intro curr
  induction curr with
  | nil =>
    intro next states hv
    simp [finalSweepWB, specSweepWB, collectMatches, Except.map]
  | cons th rest ihc =>
    intro next states hv
    have hvrest : ∀ t ∈ rest, ∃ instr, prog.prog.get? t.pc = some instr :=
      fun t ht => hv t (List.mem_cons_of_mem th ht)
    obtain ⟨instr, hg⟩ := hv th (List.mem_cons_self th rest)
    cases instr with
    | WordBoundary =>
      simp only [finalSweepWB, specSweepWB, hg, bind, Except.bind, collectMatches,
        List.filterMap_cons]
      cases word with
      | true =>
        simp only [if_true]
        cases h1 : addThread upd prog fuel ⟨th.pc + 1, i, none⟩ th.state next with
        | error e => rfl
        | ok t1 =>
          dsimp only
          rw [ihc t1 states hvrest]
          rfl
      | false =>
        rw [ihc next states hvrest]
        rfl
    | Match =>
      simp only [finalSweepWB, specSweepWB, hg, collectMatches, List.filterMap_cons]
      rw [ihc next (states ++ [th.state]) hvrest]
      cases hS : specSweepWB upd prog fuel word i rest next with
      | error e => rfl
      | ok nx => simp [Except.map, collectMatches]
    | Token t =>
      simp only [finalSweepWB, specSweepWB, hg, collectMatches, List.filterMap_cons]
      rw [ihc next states hvrest]
      rfl
    | Any =>
      simp only [finalSweepWB, specSweepWB, hg, collectMatches, List.filterMap_cons]
      rw [ihc next states hvrest]
      rfl
    | Map m =>
      simp only [finalSweepWB, specSweepWB, hg, collectMatches, List.filterMap_cons]
      rw [ihc next states hvrest]
      rfl
    | Set st =>
      simp only [finalSweepWB, specSweepWB, hg, collectMatches, List.filterMap_cons]
      rw [ihc next states hvrest]
      rfl
    | Split a =>
      simp only [finalSweepWB, specSweepWB, hg, collectMatches, List.filterMap_cons]
      rw [ihc next states hvrest]
      rfl
    | JSplit a =>
      simp only [finalSweepWB, specSweepWB, hg, collectMatches, List.filterMap_cons]
      rw [ihc next states hvrest]
      rfl
    | Jump a =>
      simp only [finalSweepWB, specSweepWB, hg, collectMatches, List.filterMap_cons]
      rw [ihc next states hvrest]
      rfl
    | UpdateState u =>
      simp only [finalSweepWB, specSweepWB, hg, collectMatches, List.filterMap_cons]
      rw [ihc next states hvrest]
      rfl
    | Reject =>
      simp only [finalSweepWB, specSweepWB, hg, collectMatches, List.filterMap_cons]
      rw [ihc next states hvrest]
      rfl

/-- The code's second final sweep appends exactly the states of the
`Match` threads, in order, provided every swept thread has a valid
pc. -/
theorem finalSweepMatch_spec {T U S I : Type} (prog : Program T U I) :
    ∀ (next : List (Thread S)) (states : List S),
    (∀ th ∈ next, ∃ instr, prog.prog.get? th.pc = some instr) →
    finalSweepMatch prog next states = .ok (states ++ collectMatches prog next) := by
  intro next
  induction next with
  | nil =>
    intro states hv
    simp [finalSweepMatch, collectMatches]
  | cons th rest ihc =>
    intro states hv
    have hvrest : ∀ t ∈ rest, ∃ instr, prog.prog.get? t.pc = some instr :=
      fun t ht => hv t (List.mem_cons_of_mem th ht)
    obtain ⟨instr, hg⟩ := hv th (List.mem_cons_self th rest)
    cases instr with
    | Match =>
      simp only [finalSweepMatch, hg, collectMatches, List.filterMap_cons]
      rw [ihc (states ++ [th.state]) hvrest]
      simp [collectMatches]
    | WordBoundary =>
      simp only [finalSweepMatch, hg, collectMatches, List.filterMap_cons]
      exact ihc states hvrest
    | Token t =>
      simp only [finalSweepMatch, hg, collectMatches, List.filterMap_cons]
      exact ihc states hvrest
    | Any =>
      simp only [finalSweepMatch, hg, collectMatches, List.filterMap_cons]
      exact ihc states hvrest
    | Map m =>
      simp only [finalSweepMatch, hg, collectMatches, List.filterMap_cons]
      exact ihc states hvrest
    | Set st =>
      simp only [finalSweepMatch, hg, collectMatches, List.filterMap_cons]
      exact ihc states hvrest
    | Split a =>
      simp only [finalSweepMatch, hg, collectMatches, List.filterMap_cons]
      exact ihc states hvrest
    | JSplit a =>
      simp only [finalSweepMatch, hg, collectMatches, List.filterMap_cons]
      exact ihc states hvrest
    | Jump a =>
      simp only [finalSweepMatch, hg, collectMatches, List.filterMap_cons]
      exact ihc states hvrest
    | UpdateState u =>
      simp only [finalSweepMatch, hg, collectMatches, List.filterMap_cons]
      exact ihc states hvrest
    | Reject =>
      simp only [finalSweepMatch, hg, collectMatches, List.filterMap_cons]
      exact ihc states hvrest

/-- Threads admitted by the spec-side sweep all point at stoppable
instructions. -/
theorem specSweepWB_mem {T U S I : Type} (upd : S → U → ProgramState T → S × Bool)
    (prog : Program T U I) (fuel : Nat) (word : Bool) (i : Nat) :
    ∀ (curr next nx : List (Thread S)),
    (∀ t ∈ next, ThreadOk prog t) →
    specSweepWB upd prog fuel word i curr next = .ok nx →
    ∀ t ∈ nx, ThreadOk prog t := by
  intro curr
  induction curr with
  | nil =>
    intro next nx hnext h
    simp only [specSweepWB, Except.ok.injEq] at h
    subst h
    exact hnext
  | cons th rest ihc =>
    intro next nx hnext h
    cases hg : prog.prog.get? th.pc with
    | none =>
      simp only [specSweepWB, hg] at h
      exact ihc next nx hnext h
    | some instr =>
      cases instr with
      | WordBoundary =>
        simp only [specSweepWB, hg, bind, Except.bind] at h
        split at h
        · split at h
          · exact Except.noConfusion h
          · rename_i t1 h1
            refine ihc t1 nx (fun t ht => ?_) h
            rcases addThread_mem upd prog fuel _ _ _ _ h1 t ht with h2 | h2
            · exact hnext t h2
            · exact h2
        · exact ihc next nx hnext h
      | Match => simp only [specSweepWB, hg] at h; exact ihc next nx hnext h
      | Token t => simp only [specSweepWB, hg] at h; exact ihc next nx hnext h
      | Any => simp only [specSweepWB, hg] at h; exact ihc next nx hnext h
      | Map m => simp only [specSweepWB, hg] at h; exact ihc next nx hnext h
      | Set st => simp only [specSweepWB, hg] at h; exact ihc next nx hnext h
      | Split a => simp only [specSweepWB, hg] at h; exact ihc next nx hnext h
      | JSplit a => simp only [specSweepWB, hg] at h; exact ihc next nx hnext h
      | Jump a => simp only [specSweepWB, hg] at h; exact ihc next nx hnext h
      | UpdateState u => simp only [specSweepWB, hg] at h; exact ihc next nx hnext h
      | Reject => simp only [specSweepWB, hg] at h; exact ihc next nx hnext h

/-- C6: once the searcher is exhausted, the remaining `curr` threads are
swept once — each `WordBoundary` thread admits its successor into a
final list iff `word` is true (EOF counts as non-word), each `Match`
thread records its state — and the final list is swept once more with
only its `Match` threads contributing; all other threads yield
nothing.  Formally, the exhausted-input run equals: the already recorded
states, then the `Match` states of `curr`, then the `Match` states of
the boundary-successor closure list. -/
theorem c6_final_sweep_characterization {T U S I : Type} [DecidableEq T]
    (upd : S → U → ProgramState T → S × Bool) (prog : Program T U I) (fuel : Nat)
    (is_word : T → Bool) (word : Bool) (i : Nat) (curr : List (Thread S)) (states : List S)
    (hok : ∀ th ∈ curr, ThreadOk prog th) :
    execLoop upd prog fuel is_word [] word i curr states =
      Except.map
        (fun next => states ++ collectMatches prog curr ++ collectMatches prog next)
        (specSweepWB upd prog fuel word i curr []) := by
  have hv : ∀ th ∈ curr, ∃ instr, prog.prog.get? th.pc = some instr :=
    fun th ht => ⟨(hok th ht).choose, (hok th ht).choose_spec.1⟩
  show finalPhase upd prog fuel word i curr states = _
  simp only [finalPhase, bind, Except.bind]
  rw [finalSweepWB_spec upd prog fuel word i curr [] states hv]
  cases hS : specSweepWB upd prog fuel word i curr [] with
  | error e => rfl
  | ok nx =>
    have hnx : ∀ t ∈ nx, ThreadOk prog t :=
      specSweepWB_mem upd prog fuel word i curr [] nx
        (fun t ht => absurd ht (List.not_mem_nil t)) hS
    show finalSweepMatch prog nx (states ++ collectMatches prog curr) =
      Except.ok (states ++ collectMatches prog curr ++ collectMatches prog nx)
    rw [finalSweepMatch_spec prog nx (states ++ collectMatches prog curr)
      (fun th ht => ⟨(hnx th ht).choose, (hnx th ht).choose_spec.1⟩)]

/-- Witness for C6 at a concrete input: a single remaining `Match`
thread of `progC1`. -/
theorem c6_final_sweep_witness :
    execLoop (SaveList.update (T := Char)) progC1 5 charIsWord [] false 0
        [⟨1, ([] : SaveList)⟩] [] =
      Except.map
        (fun next => ([] : List SaveList)
          ++ collectMatches progC1 [(⟨1, []⟩ : Thread SaveList)]
          ++ collectMatches progC1 next)
        (specSweepWB (SaveList.update (T := Char)) progC1 5 false 0
          [⟨1, ([] : SaveList)⟩] []) :=
  c6_final_sweep_characterization _ progC1 5 charIsWord false 0 _ []
    (fun th ht => by rcases List.mem_singleton.mp ht with rfl; exact ⟨.Match, rfl, rfl⟩)

end RegexVM

namespace RegexVM

/-- Byte length of a concatenation of codepoint lists is the sum of the
byte lengths. -/
theorem utf8Length_append (l1 l2 : List Char) :
    utf8Length (l1 ++ l2) = utf8Length l1 + utf8Length l2 := by
  simp [utf8Length]

/-- After `k` calls to `next`, a string searcher holds the remaining
codepoints and the byte index grown by the width of the consumed
prefix. -/
theorem strSearcher_nextN :
    ∀ (k : Nat) (l : List Char) (n : Nat),
    StrSearcher.nextN k ⟨n, l⟩ = ⟨n + utf8Length (l.take k), l.drop k⟩ := by
  intro k
  induction k with
  | zero => intro l n; simp [StrSearcher.nextN, utf8Length]
  | succ k ih =>
    intro l n
    cases l with
    | nil => simp [StrSearcher.nextN, StrSearcher.next, ih, utf8Length]
    | cons c rest =>
      show StrSearcher.nextN k ⟨n + c.utf8Size, rest⟩ = _
      rw [ih]
      simp [utf8Length, Nat.add_assoc]

/-- After `k` calls to `next`, a sequence searcher holds the remaining
elements and the index grown by one per consumed element. -/
theorem iterSearcher_nextN {T : Type} :
    ∀ (k : Nat) (l : List T) (n : Nat),
    IterSearcher.nextN k ⟨n, l⟩ = ⟨n + min k l.length, l.drop k⟩ := by
  intro k
  induction k with
  | zero => intro l n; simp [IterSearcher.nextN]
  | succ k ih =>
    intro l n
    cases l with
    | nil => simp [IterSearcher.nextN, IterSearcher.next, ih]
    | cons t rest =>
      show IterSearcher.nextN k ⟨n + 1, rest⟩ = _
      rw [ih]
      simp only [List.length_cons, List.drop_succ_cons, Nat.succ_min_succ,
        IterSearcher.mk.injEq, and_true]
      omega

/-- C8: a searcher's index starts at 0; each call returning `Some(tok)`
returns the index one past the token's end — the UTF-8 byte offset of
the consumed prefix for string input, the element count for sequence
input — and once exhausted it returns `(idx, None)` with the index (and
the searcher) unchanged. -/
theorem c8_searcher_index_contract :
    (∀ l : List Char, (StrSearcher.into_searcher l).next_index = 0)
    ∧ (∀ (l : List Char) (k : Nat),
        StrSearcher.nextN k (StrSearcher.into_searcher l) =
          ⟨utf8Length (l.take k), l.drop k⟩)
    ∧ (∀ (l : List Char) (k : Nat) (c : Char) (rest : List Char),
        l.drop k = c :: rest →
        (StrSearcher.nextN k (StrSearcher.into_searcher l)).next =
          ((utf8Length (l.take (k + 1)), some c),
            ⟨utf8Length (l.take (k + 1)), rest⟩))
    ∧ (∀ (l : List Char) (k : Nat), l.drop k = [] →
        (StrSearcher.nextN k (StrSearcher.into_searcher l)).next =
          ((utf8Length l, none), StrSearcher.nextN k (StrSearcher.into_searcher l)))
    ∧ (∀ (T : Type) (l : List T), (IterSearcher.new l).next_index = 0)
    ∧ (∀ (T : Type) (l : List T) (k : Nat),
        IterSearcher.nextN k (IterSearcher.new l) = ⟨min k l.length, l.drop k⟩)
    ∧ (∀ (T : Type) (l : List T) (k : Nat) (t : T) (rest : List T),
        l.drop k = t :: rest →
        (IterSearcher.nextN k (IterSearcher.new l)).next =
          ((k + 1, some t), ⟨k + 1, rest⟩))
    ∧ (∀ (T : Type) (l : List T) (k : Nat), l.drop k = [] →
        (IterSearcher.nextN k (IterSearcher.new l)).next =
          ((l.length, none), IterSearcher.nextN k (IterSearcher.new l))) := by
  have hstr : ∀ (l : List Char) (k : Nat),
      StrSearcher.nextN k (StrSearcher.into_searcher l) =
        ⟨utf8Length (l.take k), l.drop k⟩ := by
    intro l k
    have h := strSearcher_nextN k l 0
    simpa [StrSearcher.into_searcher] using h
  have hiter : ∀ (T : Type) (l : List T) (k : Nat),
      IterSearcher.nextN k (IterSearcher.new l) = ⟨min k l.length, l.drop k⟩ := by
    intro T l k
    have h := iterSearcher_nextN k l 0
    simpa [IterSearcher.new] using h
  refine ⟨fun l => rfl, hstr, ?_, ?_, fun T l => rfl, hiter, ?_, ?_⟩
  · intro l k c rest hd
    rw [hstr l k, hd]
    have hget : l[k]? = some c := by
      have h0 := List.getElem?_drop l k 0
      rw [hd] at h0
      simpa using h0.symm
    have htake : l.take (k + 1) = l.take k ++ [c] := by
      rw [List.take_succ, hget]
      rfl
    simp [StrSearcher.next, htake, utf8Length_append, utf8Length]
  · intro l k hd
    have hlen : l.length ≤ k := List.drop_eq_nil_iff.mp hd
    have htake : l.take k = l := List.take_of_length_le hlen
    rw [hstr l k, hd, htake]
    rfl
  · intro T l k t rest hd
    have hk : k < l.length := by
      have := congrArg List.length hd
      simp [List.length_drop] at this
      omega
    rw [hiter T l k, hd]
    simp [IterSearcher.next, Nat.min_eq_left (Nat.le_of_lt hk)]
  · intro T l k hd
    have hlen : l.length ≤ k := List.drop_eq_nil_iff.mp hd
    rw [hiter T l k, hd, Nat.min_eq_right hlen]
    rfl

/-- Witness for C8 at concrete inputs: a multi-byte codepoint advance
and an exhausted sequence searcher. -/
theorem c8_searcher_witness :
    (StrSearcher.nextN 0 (StrSearcher.into_searcher ['€', 'a'])).next =
      ((3, some '€'), ⟨3, ['a']⟩)
    ∧ (IterSearcher.nextN 2 (IterSearcher.new ['x', 'y'])).next =
      ((2, none), IterSearcher.nextN 2 (IterSearcher.new ['x', 'y'])) := by
  constructor
  · have h := c8_searcher_index_contract.2.2.1 ['€', 'a'] 0 '€' ['a'] rfl
    exact h.trans (by decide)
  · exact c8_searcher_index_contract.2.2.2.2.2.2.2 Char ['x', 'y'] 2 rfl

end RegexVM
